import Mathlib

/-!
Verification of the command-execution / output-streaming core of the
`mohsafer/utils` repository (files `togglev2.py` and `wireguard_toggle.py`).

The embedding below translates, from the Python source:
* `strip_ansi` (togglev2.py lines 13-16): `re.sub` with the ANSI pattern
  (ESC followed by either a single byte in `0x40`-`0x5A` or `0x5C`-`0x5F`,
  or by a CSI sequence: a literal bracket, parameter bytes `0x30`-`0x3F`,
  intermediate bytes `0x20`-`0x2F`, and a final byte `0x40`-`0x7E`),
  scanning left to right and deleting each non-overlapping match.  The
  three CSI character classes are pairwise disjoint, so the greedy
  left-to-right scan below is exactly the regex-engine behaviour
  (backtracking can never succeed where the greedy scan fails).
* Python `str.strip()` (no arguments): remove leading and trailing
  characters `c` with `c.isspace()`; `isPySpace` lists that set.
* the character-at-a-time streaming loop of `CommandThread.run`
  (togglev2.py lines 40-57): a fold over the character stream with state
  (emitted lines, current buffer), plus the end-of-stream flush.
* the line-iteration streaming loop of `CommandThread.run`
  (wireguard_toggle.py lines 30-33): Python file iteration (split after
  each newline), then removal of trailing newlines, emit when non-empty.
* the outcome logic of `CommandThread.run` (both files, launch / read /
  wait errors caught by the surrounding `try`), the classifier in
  `WireGuardToggle.append_log`, and the state effects of
  `WireGuardToggle.start_command`.
-/

/-- The escape character `0x1B` that starts every ANSI sequence. -/
def escChar : Char := '\x1B'

/-- CSI parameter byte: bytes `0x30` through `0x3F`. -/
def isCsiParam (c : Char) : Bool := 0x30 ≤ c.toNat && c.toNat ≤ 0x3F

/-- CSI intermediate byte: bytes `0x20` through `0x2F`. -/
def isCsiInter (c : Char) : Bool := 0x20 ≤ c.toNat && c.toNat ≤ 0x2F

/-- CSI final byte: bytes `0x40` through `0x7E`. -/
def isCsiFinal (c : Char) : Bool := 0x40 ≤ c.toNat && c.toNat ≤ 0x7E

/-- The character class for two-character escapes: `0x40`-`0x5A`
or `0x5C`-`0x5F` (the bracket `0x5B` is excluded, it starts a CSI). -/
def isEscSingle (c : Char) : Bool :=
  (0x40 ≤ c.toNat && c.toNat ≤ 0x5A) || (0x5C ≤ c.toNat && c.toNat ≤ 0x5F)

/-- Final step of a CSI match: one final byte, returning what follows. -/
def csiTail : List Char → Option (List Char)
  | [] => none
  | f :: rest => if isCsiFinal f then some rest else none

/-- Attempt to match the tail of an ANSI sequence (the part after `ESC`)
at the head of `cs`; on success return the characters after the match. -/
def matchAnsi : List Char → Option (List Char)
  | [] => none
  | c :: cs =>
    if isEscSingle c then some cs
    else if c = '[' then
      csiTail ((cs.dropWhile isCsiParam).dropWhile isCsiInter)
    else none

/-- Fuel-indexed worker for `stripAnsi`; the fuel only serves to make the
recursion structural (it is always at least the length of the list). -/
def stripAnsiGo : Nat → List Char → List Char
  | _, [] => []
  | 0, l => l
  | fuel + 1, c :: cs =>
    if c = escChar then
      match matchAnsi cs with
      | some rest => stripAnsiGo fuel rest
      | none => c :: stripAnsiGo fuel cs
    else c :: stripAnsiGo fuel cs

/-- `strip_ansi` (togglev2.py): delete every non-overlapping match of the
ANSI pattern, scanning left to right. -/
def stripAnsi (l : List Char) : List Char := stripAnsiGo l.length l

/-- Python `str.isspace()`: the whitespace set used by `str.strip()`. -/
def isPySpace (c : Char) : Bool :=
  let n := c.toNat
  (9 ≤ n && n ≤ 13) || (28 ≤ n && n ≤ 32) || n = 0x85 || n = 0xA0 ||
  n = 0x1680 || (0x2000 ≤ n && n ≤ 0x200A) || n = 0x2028 || n = 0x2029 ||
  n = 0x202F || n = 0x205F || n = 0x3000

/-- Python `str.strip()`: drop leading and trailing whitespace. -/
def pyStrip (l : List Char) : List Char :=
  (((l.dropWhile isPySpace).reverse).dropWhile isPySpace).reverse

/-- The per-line sanitization of togglev2.py line 46:
`strip_ansi(buf).strip()`. -/
def sanitizeLine (l : List Char) : List Char := pyStrip (stripAnsi l)

/-- The flush step of togglev2.py lines 46-48 and 55-57: sanitize the
buffer and emit it only when the result is non-empty. -/
def flushLine (buf : List Char) : List (List Char) :=
  if sanitizeLine buf = [] then [] else [sanitizeLine buf]

/-- One iteration of the read loop of togglev2.py lines 41-51,
acting on the state (lines emitted so far, current buffer). -/
def framerStep (st : List (List Char) × List Char) (c : Char) :
    List (List Char) × List Char :=
  if c = '\n' ∨ c = '\r' then (st.1 ++ flushLine st.2, []) else (st.1, st.2 ++ [c])

/-- The end-of-stream flush of togglev2.py lines 53-57. -/
def framerFinish (st : List (List Char) × List Char) : List (List Char) :=
  if st.2 = [] then st.1 else st.1 ++ flushLine st.2

/-- The lines emitted by the togglev2.py streaming loop on a whole
character stream (read loop followed by the end-of-stream flush). -/
def runLines (input : List Char) : List (List Char) :=
  framerFinish (input.foldl framerStep ([], []))

/-- The lines emitted by the read loop alone, without the end-of-stream
flush (this is what has been emitted when an exception interrupts the
loop). -/
def linesNoFlush (input : List Char) : List (List Char) :=
  (input.foldl framerStep ([], [])).1

/-- Python file iteration over a text stream (wireguard_toggle.py line 30):
split after each newline, keeping the newline; a final segment without a
newline is yielded only when non-empty. -/
def pyIterGo : List Char → List Char → List (List Char)
  | [], acc => if acc = [] then [] else [acc]
  | c :: cs, acc =>
    if c = '\n' then (acc ++ ['\n']) :: pyIterGo cs [] else pyIterGo cs (acc ++ [c])

/-- The lines yielded by `for line in process.stdout`. -/
def pyIterLines (l : List Char) : List (List Char) := pyIterGo l []

/-- Python `line.rstrip("\n")` (wireguard_toggle.py line 31): remove all
trailing newline characters. -/
def rstripNL (l : List Char) : List Char :=
  (l.reverse.dropWhile (fun c => c == '\n')).reverse

/-- The body of the wireguard_toggle.py streaming loop (lines 30-33):
for each iterated line, remove trailing newlines and emit when non-empty. -/
def wgEmit : List (List Char) → List (List Char)
  | [] => []
  | l :: ls =>
    if rstripNL l = [] then wgEmit ls else rstripNL l :: wgEmit ls

/-- The lines emitted by the wireguard_toggle.py streaming loop on a whole
character stream. -/
def wgRunLines (input : List Char) : List (List Char) :=
  wgEmit (pyIterLines input)

/-- The events a `CommandThread` can emit (both files):
`output_ready` with a line, `finished_ok`, or `finished_err` with a
message. -/
inductive Event where
  | line (text : List Char)
  | finished_ok : Event
  | finished_err (msg : String)
deriving DecidableEq

/-- Whether an event is a terminal `ExecutionOutcome`
(`finished_ok` or `finished_err`). -/
def Event.isTerminal : Event → Bool
  | .line _ => false
  | .finished_ok => true
  | .finished_err _ => true

/-- The behaviour of one external-process invocation, as observed by
`CommandThread.run`: `launchError` is the message of an exception raised
by `subprocess.Popen` (before anything is read); `output` is the character
stream successfully read; `readError` is the message of an exception
raised by a `read` during the loop, after `output` was consumed;
`waitError` is the message of an exception raised by `process.wait()`;
`exitCode` is the return code when no exception occurs. -/
structure ProcBehavior where
  launchError : Option String
  output : List Char
  readError : Option String
  waitError : Option String
  exitCode : Int

/-- The message of the non-zero-exit failure (both files, line 63 / 38). -/
def exitMessage (code : Int) : String := "Exit code " ++ toString code

/-- `CommandThread.run` of togglev2.py (lines 29-65) as an event trace:
the try block streams lines and then reports the outcome; any exception
is caught and converted to `finished_err` with its message. -/
def runEvents (b : ProcBehavior) : List Event :=
  match b.launchError with
  | some e => [.finished_err e]
  | none =>
    match b.readError with
    | some e => (linesNoFlush b.output).map Event.line ++ [.finished_err e]
    | none =>
      match b.waitError with
      | some e => (runLines b.output).map Event.line ++ [.finished_err e]
      | none =>
        (runLines b.output).map Event.line ++
          [if b.exitCode = 0 then .finished_ok else .finished_err (exitMessage b.exitCode)]

/-- The classification implicit in `WireGuardToggle.append_log`
(togglev2.py lines 182-191): the colour chosen for a line. -/
inductive Tag where
  | directive : Tag
  | error : Tag
  | plain : Tag
deriving DecidableEq

/-- ASCII lowering; Python `str.lower()` restricted to ASCII letters,
which is extensionally equivalent here since the searched keywords are
ASCII-only. -/
def pyLowerChar (c : Char) : Char :=
  if 'A' ≤ c ∧ c ≤ 'Z' then Char.ofNat (c.toNat + 32) else c

/-- `line.lower()`. -/
def pyLower (l : List Char) : List Char := l.map pyLowerChar

/-- Python substring containment `needle in hay`. -/
def containsSub (needle : List Char) : List Char → Bool
  | [] => needle.isEmpty
  | c :: cs => needle.isPrefixOf (c :: cs) || containsSub needle cs

/-- `any(w in line.lower() for w in ("error", "failed", "fatal"))`
(togglev2.py line 186). -/
def hasErrorKeyword (line : List Char) : Bool :=
  containsSub ("error".toList) (pyLower line) ||
  containsSub ("failed".toList) (pyLower line) ||
  containsSub ("fatal".toList) (pyLower line)

/-- The rule of `WireGuardToggle.append_log` (togglev2.py lines 184-189):
directive prefix first, then case-insensitive error keywords, else plain. -/
def appendLogTag (line : List Char) : Tag :=
  if ("[#]".toList).isPrefixOf line then Tag.directive
  else if hasErrorKeyword line then Tag.error
  else Tag.plain

/-- The observable state of the `WireGuardToggle` window that
`start_command` touches: log-box content, status text, button enablement,
and the held `CommandThread`. -/
structure ToggleState where
  logLines : List String
  statusText : String
  buttonsEnabled : Bool
  threadCommand : Option String
  threadRunning : Bool
deriving DecidableEq

/-- The header line appended by `start_command` (togglev2.py line 202). -/
def commandHeader (label : String) : String :=
  "<span style=\x27color:#569cd6;\x27>$ " ++ label ++ "</span>"

/-- `WireGuardToggle.start_command` (togglev2.py lines 199-218): clear the
log, append the header, set the running status, disable the buttons,
replace the held thread with a new `CommandThread(command)` and start it.
The current state `st` is never inspected: there is no busy check. -/
def startCommand (st : ToggleState) (command label : String) : ToggleState :=
  { logLines := [commandHeader label],
    statusText := "⏳ Running " ++ label ++ "…",
    buttonsEnabled := false,
    threadCommand := some command,
    threadRunning := true }

/-- A decomposition of a raw line into plain text and well-formed CSI
sequences (ESC, bracket, parameter bytes, intermediate bytes, final
byte). -/
inductive Chunk where
  | plain (cs : List Char)
  | csi (params inters : List Char) (f : Char)

/-- The characters a chunk contributes to the raw line. -/
def Chunk.chars : Chunk → List Char
  | .plain cs => cs
  | .csi params inters f => escChar :: '[' :: (params ++ inters ++ [f])

/-- The characters a chunk should contribute after sanitization: plain
text survives, CSI sequences vanish. -/
def Chunk.keep : Chunk → List Char
  | .plain cs => cs
  | .csi _ _ _ => []

/-- Well-formedness: plain text holds no ESC, and a CSI sequence has
parameter, intermediate and final bytes from the right classes. -/
def Chunk.Good : Chunk → Prop
  | .plain cs => ∀ c ∈ cs, c ≠ escChar
  | .csi params inters f =>
      (∀ c ∈ params, isCsiParam c = true) ∧
      (∀ c ∈ inters, isCsiInter c = true) ∧ isCsiFinal f = true

/-- Chunk-wise delivery of a stream to the read loop: each chunk is fed
character by character into the same persistent state. -/
def feedChunks (chunks : List (List Char)) : List (List Char) × List Char :=
  chunks.foldl (fun st chunk => chunk.foldl framerStep st) ([], [])

/-- Re-insert a newline terminator after every emitted line. -/
def rejoinNL (ls : List (List Char)) : List Char :=
  (ls.map (fun l => l ++ ['\n'])).flatten

/-- Remove trailing line terminators (trailing-terminator
normalization). -/
def dropTrailingTerm (l : List Char) : List Char :=
  (l.reverse.dropWhile (fun c => c == '\n' || c == '\r')).reverse

/-- Join newline-free segments with single newlines: the stream whose
lines are exactly the segments, with no trailing newline. -/
def joinNL : List (List Char) → List Char
  | [] => []
  | [s] => s
  | s :: rest => s ++ '\n' :: joinNL rest

/-- Keep the non-empty segments, in order. -/
def keepNonempty : List (List Char) → List (List Char)
  | [] => []
  | l :: ls => if l = [] then keepNonempty ls else l :: keepNonempty ls

theorem dropWhile_length_le (p : Char → Bool) (l : List Char) :
    (l.dropWhile p).length ≤ l.length := by
  induction l with
  | nil => simp [List.dropWhile]
  | cons c cs ih =>
    by_cases h : p c
    · simp only [List.dropWhile, h]
      exact Nat.le_succ_of_le ih
    · simp [List.dropWhile, h]

theorem csiTail_length {l rest : List Char} (h : csiTail l = some rest) :
    rest.length < l.length := by
  cases l with
  | nil => simp [csiTail] at h
  | cons f rest' =>
    by_cases hf : isCsiFinal f
    · simp only [csiTail, hf, if_true, Option.some.injEq] at h
      subst h
      simp
    · simp [csiTail, hf] at h

theorem matchAnsi_length {cs rest : List Char} (h : matchAnsi cs = some rest) :
    rest.length ≤ cs.length := by
  cases cs with
  | nil => simp [matchAnsi] at h
  | cons c cs' =>
    simp only [matchAnsi] at h
    by_cases h1 : isEscSingle c
    · simp only [h1, if_true, Option.some.injEq] at h
      subst h
      simp
    · simp only [h1, Bool.false_eq_true, if_false] at h
      by_cases h2 : c = '['
      · simp only [h2, if_true] at h
        have h3 : rest.length < ((cs'.dropWhile isCsiParam).dropWhile isCsiInter).length :=
          csiTail_length h
        have h4 := dropWhile_length_le isCsiInter (cs'.dropWhile isCsiParam)
        have h5 := dropWhile_length_le isCsiParam cs'
        simp only [List.length_cons]
        omega
      · simp [h2] at h
theorem stripAnsiGo_irrel (fuel1 : Nat) :
    ∀ (fuel2 : Nat) (l : List Char), l.length ≤ fuel1 → l.length ≤ fuel2 →
      stripAnsiGo fuel1 l = stripAnsiGo fuel2 l := by
  induction fuel1 with
  | zero =>
    intro fuel2 l h1 _
    cases l with
    | nil => cases fuel2 <;> rfl
    | cons c cs => simp at h1
  | succ n ih =>
    intro fuel2 l h1 h2
    cases l with
    | nil => cases fuel2 <;> rfl
    | cons c cs =>
      cases fuel2 with
      | zero => simp at h2
      | succ m =>
        simp only [List.length_cons, Nat.succ_le_succ_iff] at h1 h2
        simp only [stripAnsiGo]
        by_cases hc : c = escChar
        · simp only [hc, if_true]
          cases hm : matchAnsi cs with
          | some rest =>
            exact ih m rest (Nat.le_trans (matchAnsi_length hm) h1)
              (Nat.le_trans (matchAnsi_length hm) h2)
          | none =>
            show escChar :: stripAnsiGo n cs = escChar :: stripAnsiGo m cs
            rw [ih m cs h1 h2]
        · simp only [hc, if_false]
          rw [ih m cs h1 h2]

theorem stripAnsiGo_eq_stripAnsi {fuel : Nat} {l : List Char} (h : l.length ≤ fuel) :
    stripAnsiGo fuel l = stripAnsi l :=
  stripAnsiGo_irrel fuel l.length l h (Nat.le_refl _)

theorem stripAnsi_nil : stripAnsi [] = [] := rfl

theorem stripAnsi_cons_ne (c : Char) (cs : List Char) (h : ¬ c = escChar) :
    stripAnsi (c :: cs) = c :: stripAnsi cs := by
  show stripAnsiGo (cs.length + 1) (c :: cs) = c :: stripAnsi cs
  simp only [stripAnsiGo, h, if_false]
  rw [stripAnsiGo_eq_stripAnsi (Nat.le_refl _)]

theorem stripAnsi_esc_match {cs rest : List Char} (h : matchAnsi cs = some rest) :
    stripAnsi (escChar :: cs) = stripAnsi rest := by
  show stripAnsiGo (cs.length + 1) (escChar :: cs) = stripAnsi rest
  simp only [stripAnsiGo, if_pos rfl]
  rw [h]
  exact stripAnsiGo_eq_stripAnsi (matchAnsi_length h)

theorem stripAnsi_esc_nomatch {cs : List Char} (h : matchAnsi cs = none) :
    stripAnsi (escChar :: cs) = escChar :: stripAnsi cs := by
  show stripAnsiGo (cs.length + 1) (escChar :: cs) = escChar :: stripAnsi cs
  simp only [stripAnsiGo, if_pos rfl]
  rw [h]
  rfl

theorem flushLine_nil : flushLine [] = [] := rfl

theorem framerFinish_eq (out : List (List Char)) (buf : List Char) :
    framerFinish (out, buf) = out ++ flushLine buf := by
  by_cases h : buf = []
  · subst h
    simp [framerFinish, flushLine_nil]
  · simp [framerFinish, h]

theorem stripAnsi_id_of_noesc (l : List Char) (h : ∀ c ∈ l, c ≠ escChar) :
    stripAnsi l = l := by
  induction l with
  | nil => rfl
  | cons c cs ih =>
    rw [stripAnsi_cons_ne c cs (h c (by simp))]
    rw [ih (fun x hx => h x (by simp [hx]))]

theorem stripAnsi_plain_append (cs rest : List Char) (h : ∀ c ∈ cs, c ≠ escChar) :
    stripAnsi (cs ++ rest) = cs ++ stripAnsi rest := by
  induction cs with
  | nil => simp
  | cons c cs' ih =>
    rw [List.cons_append, stripAnsi_cons_ne c _ (h c (by simp))]
    rw [ih (fun x hx => h x (by simp [hx]))]
    rfl

theorem inter_not_param {c : Char} (h : isCsiInter c = true) : isCsiParam c = false := by
  by_contra hne
  have hp : isCsiParam c = true := by
    cases hb : isCsiParam c
    · exact absurd hb hne
    · rfl
  simp only [isCsiInter, Bool.and_eq_true, decide_eq_true_eq] at h
  simp only [isCsiParam, Bool.and_eq_true, decide_eq_true_eq] at hp
  omega

theorem final_not_param {c : Char} (h : isCsiFinal c = true) : isCsiParam c = false := by
  by_contra hne
  have hp : isCsiParam c = true := by
    cases hb : isCsiParam c
    · exact absurd hb hne
    · rfl
  simp only [isCsiFinal, Bool.and_eq_true, decide_eq_true_eq] at h
  simp only [isCsiParam, Bool.and_eq_true, decide_eq_true_eq] at hp
  omega

theorem final_not_inter {c : Char} (h : isCsiFinal c = true) : isCsiInter c = false := by
  by_contra hne
  have hp : isCsiInter c = true := by
    cases hb : isCsiInter c
    · exact absurd hb hne
    · rfl
  simp only [isCsiFinal, Bool.and_eq_true, decide_eq_true_eq] at h
  simp only [isCsiInter, Bool.and_eq_true, decide_eq_true_eq] at hp
  omega

theorem dropWhile_all_append {p : Char → Bool} (l1 l2 : List Char)
    (h : ∀ c ∈ l1, p c = true) : (l1 ++ l2).dropWhile p = l2.dropWhile p := by
  induction l1 with
  | nil => rfl
  | cons c cs ih =>
    rw [List.cons_append, List.dropWhile_cons_of_pos (h c (by simp))]
    exact ih (fun x hx => h x (by simp [hx]))

theorem dropWhile_cons_false {p : Char → Bool} {c : Char} (l : List Char)
    (h : p c = false) : (c :: l).dropWhile p = c :: l := by
  simp [List.dropWhile, h]

theorem matchAnsi_csi (params inters rest : List Char) (f : Char)
    (hp : ∀ c ∈ params, isCsiParam c = true) (hi : ∀ c ∈ inters, isCsiInter c = true)
    (hf : isCsiFinal f = true) :
    matchAnsi ('[' :: (params ++ (inters ++ (f :: rest)))) = some rest := by
  have h1 : isEscSingle '[' = false := by decide
  have h2 : (params ++ (inters ++ (f :: rest))).dropWhile isCsiParam =
      (inters ++ (f :: rest)).dropWhile isCsiParam := dropWhile_all_append _ _ hp
  have h3 : (inters ++ (f :: rest)).dropWhile isCsiParam = inters ++ (f :: rest) := by
    cases inters with
    | nil =>
      simp only [List.nil_append]
      exact dropWhile_cons_false _ (final_not_param hf)
    | cons i it =>
      rw [List.cons_append]
      exact dropWhile_cons_false _ (inter_not_param (hi i (by simp)))
  have h4 : (inters ++ (f :: rest)).dropWhile isCsiInter = f :: rest := by
    rw [dropWhile_all_append _ _ hi]
    exact dropWhile_cons_false _ (final_not_inter hf)
  simp only [matchAnsi, h1, Bool.false_eq_true, if_false, if_pos rfl]
  rw [h2, h3, h4]
  simp [csiTail, hf]

/-- Claim C1: every invocation of the runner (`CommandThread.run`) emits
exactly one terminal `ExecutionOutcome` event (`finished_ok` or
`finished_err`), it is the last event of the invocation, and every
exception raised during launch, reading, or waiting is caught and
converted into that outcome rather than propagating (the trace is total
over all process behaviours, including all three error cases). -/
theorem claim_C1_single_terminal_outcome (b : ProcBehavior) :
    ∃ pre fin, runEvents b = pre ++ [fin] ∧ fin.isTerminal = true ∧
      ∀ e ∈ pre, e.isTerminal = false := by
  cases hl : b.launchError with
  | some e =>
    exact ⟨[], .finished_err e, by simp [runEvents, hl], rfl, by simp⟩
  | none =>
    cases hr : b.readError with
    | some e =>
      refine ⟨(linesNoFlush b.output).map Event.line, .finished_err e,
        by simp [runEvents, hl, hr], rfl, ?_⟩
      intro x hx
      simp only [List.mem_map] at hx
      obtain ⟨l, _, rfl⟩ := hx
      rfl
    | none =>
      cases hw : b.waitError with
      | some e =>
        refine ⟨(runLines b.output).map Event.line, .finished_err e,
          by simp [runEvents, hl, hr, hw], rfl, ?_⟩
        intro x hx
        simp only [List.mem_map] at hx
        obtain ⟨l, _, rfl⟩ := hx
        rfl
      | none =>
        refine ⟨(runLines b.output).map Event.line,
          if b.exitCode = 0 then .finished_ok else .finished_err (exitMessage b.exitCode),
          by simp [runEvents, hl, hr, hw], ?_, ?_⟩
        · by_cases h : b.exitCode = 0 <;> simp [h, Event.isTerminal]
        · intro x hx
          simp only [List.mem_map] at hx
          obtain ⟨l, _, rfl⟩ := hx
          rfl

/-- A `WireGuardToggle` state in which an execution is in flight. -/
def runningState : ToggleState :=
  { logLines := [commandHeader "Tunnel UP"],
    statusText := "⏳ Running Tunnel UP…",
    buttonsEnabled := false,
    threadCommand := some "sudo awg-quick up awg0",
    threadRunning := true }

/-- Claim C2 is false on the code: `start_command` called while an
execution is in flight does not fail and does not leave the state
untouched — it clears the log and replaces the held thread with a newly
started one.  There is no `BusyError` anywhere in the source. -/
theorem claim_C2_counterexample :
    runningState.threadRunning = true ∧
    startCommand runningState "sudo awg show" "Status" ≠ runningState ∧
    (startCommand runningState "sudo awg show" "Status").threadCommand ≠
      runningState.threadCommand := by
  refine ⟨rfl, ?_, ?_⟩ <;> decide

/-- Claim C2, amended: `start_command` performs no busy check and never
fails: its result is independent of the current state (including the
`Running` one), and it always clears the log to the new header, disables
the buttons and launches a new thread for the new command.  Mutual
exclusion is provided only by the UI keeping the trigger buttons disabled
while a run is in flight. -/
theorem claim_C2_amended (st st' : ToggleState) (command label : String) :
    startCommand st command label = startCommand st' command label ∧
    (startCommand st command label).threadRunning = true ∧
    (startCommand st command label).buttonsEnabled = false ∧
    (startCommand st command label).threadCommand = some command ∧
    (startCommand st command label).logLines = [commandHeader label] :=
  ⟨rfl, rfl, rfl, rfl, rfl⟩

/-- Claim C3: the Line Framer accumulates non-terminator characters into
the buffer, flushes the (sanitized) buffer as a completed line whenever a
`\n` or `\r` terminator is seen, flushes any non-empty remaining buffer
at end-of-stream, emits nothing for a terminator with nothing buffered,
and collapses consecutive terminators to nothing. -/
theorem claim_C3_line_framer (out : List (List Char)) (buf : List Char)
    (c t t' : Char) (xs ys : List Char)
    (hc : ¬(c = '\n' ∨ c = '\r')) (ht : t = '\n' ∨ t = '\r')
    (ht' : t' = '\n' ∨ t' = '\r') :
    framerStep (out, buf) c = (out, buf ++ [c]) ∧
    framerStep (out, buf) t = (out ++ flushLine buf, []) ∧
    framerFinish (out, buf) = out ++ flushLine buf ∧
    framerStep (out, []) t = (out, []) ∧
    runLines (xs ++ t :: t' :: ys) = runLines (xs ++ t :: ys) := by
  have hstep : ∀ s : List (List Char) × List Char,
      framerStep (framerStep s t) t' = framerStep s t := by
    intro s
    simp only [framerStep, if_pos ht, if_pos ht']
    simp [flushLine_nil]
  refine ⟨?_, ?_, framerFinish_eq out buf, ?_, ?_⟩
  · simp only [framerStep, if_neg hc]
  · simp only [framerStep, if_pos ht]
  · simp only [framerStep, if_pos ht, flushLine_nil, List.append_nil]
  · simp only [runLines, List.foldl_append, List.foldl_cons]
    rw [hstep]

theorem claim_C3_witness :
    framerStep ([], ['a']) 'b' = ([], ['a', 'b']) :=
  (claim_C3_line_framer [] ['a'] 'b' '\n' '\r' [] []
    (by decide) (Or.inl rfl) (Or.inr rfl)).1

theorem getLast?_append_singleton (l : List Event) (a : Event) :
    (l ++ [a]).getLast? = some a := by
  rw [List.getLast?_append_cons]
  rfl

/-- Claim C4: for a completed run the outcome is `finished_ok` exactly
when the exit code is 0, `finished_err "Exit code N"` when the exit code
`N` is non-zero, and when the command cannot be launched the whole trace
is the single `finished_err` carrying the underlying error message, with
zero line events before it. -/
theorem claim_C4_outcome_matches_exit (b : ProcBehavior) (e : String) :
    (b.launchError = none → b.readError = none → b.waitError = none →
      (((runEvents b).getLast? = some Event.finished_ok) ↔ b.exitCode = 0) ∧
      (b.exitCode ≠ 0 →
        (runEvents b).getLast? = some (Event.finished_err (exitMessage b.exitCode)))) ∧
    (b.launchError = some e → runEvents b = [Event.finished_err e]) := by
  constructor
  · intro hl hr hw
    simp only [runEvents, hl, hr, hw]
    rw [getLast?_append_singleton]
    constructor
    · by_cases h : b.exitCode = 0
      · simp [h]
      · simp [h]
    · intro h
      simp [h]
  · intro hl
    simp [runEvents, hl]

theorem claim_C4_witness :
    runEvents { launchError := some "No such file or directory", output := [],
                readError := none, waitError := none, exitCode := 0 } =
      [Event.finished_err "No such file or directory"] :=
  (claim_C4_outcome_matches_exit _ "No such file or directory").2 rfl

/-- Claim C6: the classifier of `append_log` applies its rules
first-match-wins — a line beginning with the literal prefix is tagged
directive (even when it contains an error keyword), otherwise a line
whose lowercase form contains an error keyword is tagged error, otherwise
plain; with the three concrete examples from the spec. -/
theorem claim_C6_classifier (line : List Char) :
    (("[#]".toList).isPrefixOf line = true → appendLogTag line = Tag.directive) ∧
    (("[#]".toList).isPrefixOf line = false → hasErrorKeyword line = true →
      appendLogTag line = Tag.error) ∧
    (("[#]".toList).isPrefixOf line = false → hasErrorKeyword line = false →
      appendLogTag line = Tag.plain) ∧
    appendLogTag ("[#] applying rule".toList) = Tag.directive ∧
    appendLogTag ("Connection failed: timeout".toList) = Tag.error ∧
    appendLogTag ("Handshake complete".toList) = Tag.plain := by
  refine ⟨?_, ?_, ?_, by decide, by decide, by decide⟩
  · intro h
    unfold appendLogTag
    rw [if_pos h]
  · intro h1 h2
    unfold appendLogTag
    rw [if_neg (by simp only [h1]; exact Bool.false_ne_true), if_pos h2]
  · intro h1 h2
    unfold appendLogTag
    rw [if_neg (by simp only [h1]; exact Bool.false_ne_true),
        if_neg (by simp only [h2]; exact Bool.false_ne_true)]

theorem claim_C6_witness :
    appendLogTag ("[#] fatal error in rule".toList) = Tag.directive :=
  (claim_C6_classifier ("[#] fatal error in rule".toList)).1 (by decide)

theorem foldl_feed_flatten (chunks : List (List Char))
    (init : List (List Char) × List Char) :
    chunks.foldl (fun st chunk => chunk.foldl framerStep st) init =
      chunks.flatten.foldl framerStep init := by
  induction chunks generalizing init with
  | nil => rfl
  | cons ch rest ih =>
    simp only [List.foldl_cons, List.flatten_cons, List.foldl_append]
    exact ih (ch.foldl framerStep init)

theorem flatten_singletons (stream : List Char) :
    (stream.map (fun c => [c])).flatten = stream := by
  induction stream with
  | nil => rfl
  | cons c cs ih => simp [ih]

/-- Claim C7: the emitted line sequence depends only on the concatenated
content of the chunk stream, not on the chunk boundaries; in particular
one-character-at-a-time delivery equals single-chunk delivery, and the
stream `"X\r\nY\n"` delivered one byte at a time emits exactly
`["X", "Y"]`. -/
theorem claim_C7_chunking_invariance (chunks : List (List Char)) (stream : List Char) :
    framerFinish (feedChunks chunks) = runLines chunks.flatten ∧
    framerFinish (feedChunks (stream.map (fun c => [c]))) =
      framerFinish (feedChunks [stream]) ∧
    framerFinish (feedChunks (("X\r\nY\n".toList).map (fun c => [c]))) =
      [['X'], ['Y']] := by
  have key : ∀ cks : List (List Char),
      framerFinish (feedChunks cks) = runLines cks.flatten := by
    intro cks
    simp only [feedChunks, runLines, foldl_feed_flatten]
  refine ⟨key chunks, ?_, by decide⟩
  rw [key (stream.map (fun c => [c])), key [stream], flatten_singletons]
  simp

theorem foldl_framer_noterm (l : List Char) (h : ∀ c ∈ l, ¬(c = '\n' ∨ c = '\r'))
    (out : List (List Char)) (buf : List Char) :
    l.foldl framerStep (out, buf) = (out, buf ++ l) := by
  induction l generalizing buf with
  | nil => simp
  | cons c cs ih =>
    have hc := h c (by simp)
    simp only [List.foldl_cons, framerStep, if_neg hc]
    rw [ih (fun x hx => h x (by simp [hx])) (buf ++ [c])]
    simp

theorem flushLine_fixed {s : List Char} (hsan : sanitizeLine s = s) :
    flushLine s = if s = [] then [] else [s] := by
  by_cases hs : s = []
  · subst hs
    simp [flushLine_nil]
  · simp [flushLine, hsan, hs]

theorem tv_joinNL_aux (segs : List (List Char))
    (h : ∀ s ∈ segs, (∀ c ∈ s, ¬(c = '\n' ∨ c = '\r')) ∧ sanitizeLine s = s) :
    ∀ out, framerFinish ((joinNL segs).foldl framerStep (out, [])) =
      out ++ keepNonempty segs := by
  induction segs with
  | nil =>
    intro out
    simp [joinNL, framerFinish, keepNonempty]
  | cons s rest ih =>
    intro out
    cases rest with
    | nil =>
      simp only [joinNL]
      rw [foldl_framer_noterm s (h s (by simp)).1 out []]
      rw [framerFinish_eq]
      simp only [List.nil_append]
      rw [flushLine_fixed (h s (by simp)).2]
      by_cases hs : s = [] <;> simp [hs, keepNonempty]
    | cons s2 rest2 =>
      simp only [joinNL]
      rw [List.foldl_append]
      rw [foldl_framer_noterm s (h s (by simp)).1 out []]
      simp only [List.foldl_cons]
      have hstep : framerStep (out, [] ++ s) '\n' = (out ++ flushLine s, []) := by
        simp [framerStep]
      rw [hstep]
      rw [ih (fun x hx => h x (by simp [hx])) (out ++ flushLine s)]
      rw [flushLine_fixed (h s (by simp)).2]
      by_cases hs : s = [] <;>
        simp [hs, keepNonempty, List.append_assoc]

theorem tv_joinNL (segs : List (List Char))
    (h : ∀ s ∈ segs, (∀ c ∈ s, ¬(c = '\n' ∨ c = '\r')) ∧ sanitizeLine s = s) :
    runLines (joinNL segs) = keepNonempty segs := by
  have := tv_joinNL_aux segs h []
  simpa [runLines] using this

theorem pyIterGo_noNL (s : List Char) (h : ∀ c ∈ s, c ≠ '\n')
    (rest acc : List Char) :
    pyIterGo (s ++ rest) acc = pyIterGo rest (acc ++ s) := by
  induction s generalizing acc with
  | nil => simp
  | cons c cs ih =>
    have hc : ¬ c = '\n' := h c (by simp)
    simp only [List.cons_append, pyIterGo, if_neg hc]
    show pyIterGo (cs ++ rest) (acc ++ [c]) = pyIterGo rest (acc ++ c :: cs)
    rw [ih (fun x hx => h x (by simp [hx])) (acc ++ [c])]
    simp

theorem pyIterGo_noNL_nil (s acc : List Char) (h : ∀ c ∈ s, c ≠ '\n') :
    pyIterGo s acc = if acc ++ s = [] then [] else [acc ++ s] := by
  have h1 := pyIterGo_noNL s h [] acc
  simp only [List.append_nil] at h1
  rw [h1]
  rfl

theorem dropWhile_eq_self_of_all {p : Char → Bool} (l : List Char)
    (h : ∀ c ∈ l, p c = false) : l.dropWhile p = l := by
  cases l with
  | nil => rfl
  | cons c cs => exact dropWhile_cons_false cs (h c (by simp))

theorem rstripNL_noNL (s : List Char) (h : ∀ c ∈ s, c ≠ '\n') : rstripNL s = s := by
  unfold rstripNL
  rw [dropWhile_eq_self_of_all s.reverse (fun c hc => by
    have := h c (List.mem_reverse.mp hc)
    simp [this])]
  exact s.reverse_reverse

theorem rstripNL_append_nl (s : List Char) (h : ∀ c ∈ s, c ≠ '\n') :
    rstripNL (s ++ ['\n']) = s := by
  unfold rstripNL
  rw [List.reverse_append]
  simp only [List.reverse_cons, List.reverse_nil, List.nil_append, List.cons_append,
    List.nil_append]
  rw [List.dropWhile_cons_of_pos (by simp)]
  rw [dropWhile_eq_self_of_all s.reverse (fun c hc => by
    have := h c (List.mem_reverse.mp hc)
    simp [this])]
  exact s.reverse_reverse

theorem wg_joinNL (segs : List (List Char))
    (h : ∀ s ∈ segs, ∀ c ∈ s, c ≠ '\n') :
    wgRunLines (joinNL segs) = keepNonempty segs := by
  unfold wgRunLines pyIterLines
  induction segs with
  | nil => rfl
  | cons s rest ih =>
    cases rest with
    | nil =>
      simp only [joinNL]
      rw [pyIterGo_noNL_nil s [] (h s (by simp))]
      simp only [List.nil_append]
      by_cases hs : s = []
      · simp [hs, keepNonempty, wgEmit]
      · simp only [hs, if_false, wgEmit]
        rw [rstripNL_noNL s (h s (by simp))]
        simp [hs, keepNonempty, wgEmit]
    | cons s2 rest2 =>
      simp only [joinNL]
      rw [pyIterGo_noNL s (h s (by simp)) ('\n' :: joinNL (s2 :: rest2)) []]
      simp only [pyIterGo, if_pos rfl, List.nil_append]
      simp only [wgEmit]
      rw [rstripNL_append_nl s (h s (by simp))]
      rw [ih (fun x hx => h x (by simp [hx]))]
      by_cases hs : s = [] <;> simp [hs, keepNonempty]

/-- Claim C10: on every finite stream whose lines contain no carriage
returns, no ESC characters, and no leading or trailing whitespace, the
character-at-a-time loop of togglev2.py and the line-iteration loop of
wireguard_toggle.py emit the same lines in the same order.  Streams are
quantified through their unique decomposition into newline-free segments
joined by `\n`. -/
theorem claim_C10_loop_equivalence (segs : List (List Char))
    (h : ∀ s ∈ segs, (∀ c ∈ s, c ≠ '\n' ∧ c ≠ '\r' ∧ c ≠ escChar) ∧ pyStrip s = s) :
    runLines (joinNL segs) = wgRunLines (joinNL segs) := by
  rw [tv_joinNL segs ?h1, wg_joinNL segs ?h2]
  case h1 =>
    intro s hs
    refine ⟨fun c hc => ?_, ?_⟩
    · have := (h s hs).1 c hc
      rintro (rfl | rfl)
      · exact this.1 rfl
      · exact this.2.1 rfl
    · have hesc : ∀ c ∈ s, c ≠ escChar := fun c hc => ((h s hs).1 c hc).2.2
      rw [sanitizeLine, stripAnsi_id_of_noesc s hesc]
      exact (h s hs).2
  case h2 =>
    intro s hs c hc
    exact ((h s hs).1 c hc).1

theorem claim_C10_witness :
    runLines (joinNL [['o', 'k'], [], ['u', 'p']]) =
      wgRunLines (joinNL [['o', 'k'], [], ['u', 'p']]) :=
  claim_C10_loop_equivalence [['o', 'k'], [], ['u', 'p']] (by decide)

/-- Claim C8 is false on the code: the emitted lines are sanitized and
trimmed and empty lines are dropped, so re-inserting terminators does not
reproduce the original stream.  On the stream `" a"` the framer emits
`["a"]` and the leading space is lost — a difference that trailing
terminator normalization does not account for. -/
theorem claim_C8_counterexample :
    runLines (" a".toList) = [['a']] ∧
    dropTrailingTerm (rejoinNL (runLines (" a".toList))) ≠
      dropTrailingTerm (" a".toList) := by
  exact ⟨by decide, by decide⟩

theorem rejoin_aux (ls : List (List Char))
    (h : ∀ l ∈ ls, l ≠ [] ∧ sanitizeLine l = l ∧ ∀ c ∈ l, ¬(c = '\n' ∨ c = '\r')) :
    ∀ out, framerFinish ((rejoinNL ls).foldl framerStep (out, [])) = out ++ ls := by
  induction ls with
  | nil =>
    intro out
    simp [rejoinNL, framerFinish]
  | cons l rest ih =>
    intro out
    obtain ⟨hne, hsan, hterm⟩ := h l (by simp)
    simp only [rejoinNL, List.map_cons, List.flatten_cons]
    rw [List.append_assoc, List.foldl_append]
    rw [foldl_framer_noterm l hterm out []]
    simp only [List.nil_append, List.cons_append, List.foldl_cons, List.nil_append]
    have hstep : framerStep (out, l) '\n' = (out ++ [l], []) := by
      simp [framerStep, flushLine_fixed hsan, hne]
    rw [hstep]
    have := ih (fun x hx => h x (by simp [hx])) (out ++ [l])
    simp only [rejoinNL] at this
    rw [this]
    simp

/-- Claim C8, amended: the round trip holds only for normalized streams.
If every line is non-empty, is fixed by sanitization (no ANSI sequences,
no leading or trailing whitespace), contains no terminator characters,
and lines are terminated with a single newline, then the framer emits
exactly those lines and re-inserting newline terminators reproduces the
stream exactly; in general sanitization, trimming and empty-line dropping
lose data, so the claimed property fails. -/
theorem claim_C8_amended (ls : List (List Char))
    (h : ∀ l ∈ ls, l ≠ [] ∧ sanitizeLine l = l ∧ ∀ c ∈ l, ¬(c = '\n' ∨ c = '\r')) :
    runLines (rejoinNL ls) = ls ∧
    rejoinNL (runLines (rejoinNL ls)) = rejoinNL ls := by
  have h1 : runLines (rejoinNL ls) = ls := by
    have := rejoin_aux ls h []
    simpa [runLines] using this
  exact ⟨h1, by rw [h1]⟩

theorem claim_C8_amended_witness :
    runLines (rejoinNL [['a'], ['b', 'c']]) = [['a'], ['b', 'c']] :=
  (claim_C8_amended [['a'], ['b', 'c']] (by decide)).1

theorem dropWhile_idem {p : Char → Bool} (l : List Char) :
    (l.dropWhile p).dropWhile p = l.dropWhile p := by
  induction l with
  | nil => rfl
  | cons c cs ih =>
    by_cases h : p c
    · rw [List.dropWhile_cons_of_pos h]
      exact ih
    · rw [List.dropWhile_cons_of_neg h, List.dropWhile_cons_of_neg h]

theorem dropWhile_head_false {p : Char → Bool} {l : List Char}
    (hl : l.dropWhile p = l) {c : Char} {t : List Char} (hct : l = c :: t) :
    p c = false := by
  cases hb : p c
  · rfl
  · exfalso
    subst hct
    rw [List.dropWhile_cons_of_pos hb] at hl
    have hlen := congrArg List.length hl
    have hle := dropWhile_length_le p t
    simp only [List.length_cons] at hlen
    omega

theorem pyStrip_decomp (l : List Char) :
    l.dropWhile isPySpace =
      pyStrip l ++ ((l.dropWhile isPySpace).reverse.takeWhile isPySpace).reverse := by
  have hsplit :
      (l.dropWhile isPySpace).reverse.takeWhile isPySpace ++
        (l.dropWhile isPySpace).reverse.dropWhile isPySpace =
      (l.dropWhile isPySpace).reverse := List.takeWhile_append_dropWhile _ _
  calc l.dropWhile isPySpace
      = (l.dropWhile isPySpace).reverse.reverse := (List.reverse_reverse _).symm
    _ = ((l.dropWhile isPySpace).reverse.takeWhile isPySpace ++
          (l.dropWhile isPySpace).reverse.dropWhile isPySpace).reverse := by rw [hsplit]
    _ = ((l.dropWhile isPySpace).reverse.dropWhile isPySpace).reverse ++
          ((l.dropWhile isPySpace).reverse.takeWhile isPySpace).reverse := by
        rw [List.reverse_append]
    _ = pyStrip l ++ ((l.dropWhile isPySpace).reverse.takeWhile isPySpace).reverse := rfl

theorem pyStrip_left_trimmed (l : List Char) :
    (pyStrip l).dropWhile isPySpace = pyStrip l := by
  cases hB : pyStrip l with
  | nil => rfl
  | cons c t =>
    have hA : (l.dropWhile isPySpace).dropWhile isPySpace = l.dropWhile isPySpace :=
      dropWhile_idem l
    have hdecomp := pyStrip_decomp l
    rw [hB, List.cons_append] at hdecomp
    have hc : isPySpace c = false := dropWhile_head_false hA hdecomp
    exact dropWhile_cons_false t hc

theorem pyStrip_idem (l : List Char) : pyStrip (pyStrip l) = pyStrip l := by
  show (((pyStrip l).dropWhile isPySpace).reverse.dropWhile isPySpace).reverse = pyStrip l
  rw [pyStrip_left_trimmed l]
  have h2 : (pyStrip l).reverse = (l.dropWhile isPySpace).reverse.dropWhile isPySpace := by
    show ((((l.dropWhile isPySpace).reverse).dropWhile isPySpace).reverse).reverse = _
    rw [List.reverse_reverse]
  rw [h2, dropWhile_idem]
  rfl

theorem mem_of_mem_dropWhile {p : Char → Bool} {c : Char} :
    ∀ {l : List Char}, c ∈ l.dropWhile p → c ∈ l := by
  intro l
  induction l with
  | nil =>
    intro h
    simpa using h
  | cons a t ih =>
    intro h
    by_cases ha : p a
    · rw [List.dropWhile_cons_of_pos ha] at h
      exact List.mem_cons_of_mem a (ih h)
    · rw [List.dropWhile_cons_of_neg ha] at h
      exact h

theorem mem_of_mem_pyStrip {c : Char} {l : List Char} (h : c ∈ pyStrip l) : c ∈ l := by
  unfold pyStrip at h
  rw [List.mem_reverse] at h
  have h1 := mem_of_mem_dropWhile h
  rw [List.mem_reverse] at h1
  exact mem_of_mem_dropWhile h1

/-- Claim C9 is false on the code: sanitization is not idempotent,
because deleting one escape sequence can splice a new well-formed
sequence together from the residue.  On the line consisting of
`ESC [ ESC [ 0 m 0 m`, one sanitization yields `ESC [ 0 m` and a second
sanitization yields the empty line. -/
theorem claim_C9_counterexample :
    sanitizeLine ("\x1B[\x1B[0m0m".toList) = "\x1B[0m".toList ∧
    sanitizeLine (sanitizeLine ("\x1B[\x1B[0m0m".toList)) = [] ∧
    sanitizeLine (sanitizeLine ("\x1B[\x1B[0m0m".toList)) ≠
      sanitizeLine ("\x1B[\x1B[0m0m".toList) := by
  exact ⟨by decide, by decide, by decide⟩

/-- Claim C9, amended: sanitization is idempotent on every line that
contains no ESC character (then stripping is the identity and trimming an
already-trimmed line is the identity); for lines with ESC characters the
residue of one pass can form a new escape sequence, so idempotence fails
in general. -/
theorem claim_C9_amended (l : List Char) (h : ∀ c ∈ l, c ≠ escChar) :
    sanitizeLine (sanitizeLine l) = sanitizeLine l := by
  have h1 : stripAnsi l = l := stripAnsi_id_of_noesc l h
  have h2 : sanitizeLine l = pyStrip l := by
    rw [sanitizeLine, h1]
  have h3 : ∀ c ∈ pyStrip l, c ≠ escChar := fun c hc => h c (mem_of_mem_pyStrip hc)
  rw [h2, sanitizeLine, stripAnsi_id_of_noesc _ h3, pyStrip_idem]

theorem claim_C9_amended_witness :
    sanitizeLine (sanitizeLine ("  Handshake complete ".toList)) =
      sanitizeLine ("  Handshake complete ".toList) :=
  claim_C9_amended ("  Handshake complete ".toList) (by decide)

/-- Claim C5: for every raw line decomposed into plain text and
well-formed ANSI CSI sequences, the sanitizer removes exactly the CSI
sequences, preserving all non-escape characters in their original
relative order (the output even contains no ESC character at all); and a
buffer that is empty after sanitization and trimming is dropped by the
flush and never reaches the observer. -/
theorem claim_C5_sanitizer (chunks : List Chunk) (buf : List Char)
    (h : ∀ ch ∈ chunks, ch.Good) (hbuf : sanitizeLine buf = []) :
    stripAnsi ((chunks.map Chunk.chars).flatten) = (chunks.map Chunk.keep).flatten ∧
    (∀ c ∈ stripAnsi ((chunks.map Chunk.chars).flatten), c ≠ escChar) ∧
    flushLine buf = [] := by
  have main : ∀ cks : List Chunk, (∀ ch ∈ cks, ch.Good) →
      stripAnsi ((cks.map Chunk.chars).flatten) = (cks.map Chunk.keep).flatten := by
    intro cks
    induction cks with
    | nil =>
      intro _
      rfl
    | cons ch rest ih =>
      intro hg
      have hrest := ih (fun x hx => hg x (by simp [hx]))
      simp only [List.map_cons, List.flatten_cons]
      cases ch with
      | plain cs =>
        have hcs : ∀ c ∈ cs, c ≠ escChar := hg (Chunk.plain cs) (by simp)
        show stripAnsi (cs ++ (rest.map Chunk.chars).flatten) =
          cs ++ (rest.map Chunk.keep).flatten
        rw [stripAnsi_plain_append cs _ hcs, hrest]
      | csi p i f =>
        obtain ⟨hp, hi, hf⟩ := hg (Chunk.csi p i f) (by simp)
        show stripAnsi ((escChar :: '[' :: (p ++ i ++ [f])) ++
            (rest.map Chunk.chars).flatten) =
          [] ++ (rest.map Chunk.keep).flatten
        have e : (escChar :: '[' :: (p ++ i ++ [f])) ++ (rest.map Chunk.chars).flatten =
            escChar :: '[' :: (p ++ (i ++ (f :: (rest.map Chunk.chars).flatten))) := by
          simp [List.append_assoc]
        rw [e]
        rw [stripAnsi_esc_match
          (matchAnsi_csi p i ((rest.map Chunk.chars).flatten) f hp hi hf)]
        rw [hrest]
        rfl
  refine ⟨main chunks h, ?_, by simp [flushLine, hbuf]⟩
  rw [main chunks h]
  intro c hc
  rw [List.mem_flatten] at hc
  obtain ⟨l, hl, hcl⟩ := hc
  rw [List.mem_map] at hl
  obtain ⟨ch, hch, rfl⟩ := hl
  cases ch with
  | plain cs => exact (h _ hch) c hcl
  | csi p i f => simp [Chunk.keep] at hcl

theorem claim_C5_witness :
    stripAnsi ((([Chunk.plain ['a'], Chunk.csi ['0'] [] 'm',
        Chunk.plain ['b']]).map Chunk.chars).flatten) =
      (([Chunk.plain ['a'], Chunk.csi ['0'] [] 'm',
        Chunk.plain ['b']]).map Chunk.keep).flatten :=
  (claim_C5_sanitizer [Chunk.plain ['a'], Chunk.csi ['0'] [] 'm', Chunk.plain ['b']]
    [' ']
    (by
      intro ch hch
      simp only [List.mem_cons, List.not_mem_nil, or_false] at hch
      rcases hch with rfl | rfl | rfl
      · show ∀ c ∈ ['a'], c ≠ escChar
        decide
      · show (∀ c ∈ ['0'], isCsiParam c = true) ∧
          (∀ c ∈ ([] : List Char), isCsiInter c = true) ∧ isCsiFinal 'm' = true
        exact ⟨by decide, by decide, by decide⟩
      · show ∀ c ∈ ['b'], c ≠ escChar
        decide)
    (by decide)).1

theorem claim_C1_witness :
    ∃ pre fin,
      runEvents { launchError := none, output := "ok\n".toList, readError := none,
                  waitError := none, exitCode := 0 } = pre ++ [fin] ∧
      fin.isTerminal = true ∧ ∀ e ∈ pre, e.isTerminal = false :=
  claim_C1_single_terminal_outcome _

theorem claim_C2_amended_witness :
    startCommand runningState "curl ip.network/more" "My IP" =
      startCommand
        { logLines := [], statusText := "Status: -", buttonsEnabled := true,
          threadCommand := none, threadRunning := false }
        "curl ip.network/more" "My IP" :=
  (claim_C2_amended runningState
    { logLines := [], statusText := "Status: -", buttonsEnabled := true,
      threadCommand := none, threadRunning := false }
    "curl ip.network/more" "My IP").1

theorem claim_C7_witness :
    framerFinish (feedChunks [['a'], ['b', '\n']]) =
      runLines (List.flatten [['a'], ['b', '\n']]) :=
  (claim_C7_chunking_invariance [['a'], ['b', '\n']] []).1
